import Mathlib

/-!
# pt-lang-poc: the asynchronous job manager

A shallow embedding of `server/internal/jobs` (types.go, manager.go, processor.go, the
result of probe.go) and of the `/jobs/` GET handler of `server/cmd/api/main.go`, followed by
the properties of the processing pipeline, the job table, the admission queue, the purge sweep
and the result retrieval.

Modelling conventions.
* Go strings are Lean strings.
* A `time.Duration` is an int64 count of nanoseconds, given as an integer; its unary minus
  wraps (`negDuration`). A `time.Time` is an instant, an integer count of nanoseconds; `Before`
  is `<` and `Add` is addition: `time.Time` spans far more than a `Duration` can add to a
  reading of the clock, and a reading is one instant for the wall and the monotonic clock.
* A `float64` is `Float64` below: NaN, the two infinities, or a finite value given as a
  rational. Every finite float64 is a rational, so a statement proved for every `Float64`
  holds for every float64; the concrete values used (10, 45, 46) are floats.
* `map[string]*Job` is an association list; `chan queuedJob` is the list of buffered items
  together with the channel capacity.
* The external world enters as arguments: the outcome of `probeMedia`, the clock reading
  `time.Now()`, and the bytes that `rand.Read` stores in the 8-byte buffer of `newID`.
* One run is sequential: each manager operation is applied atomically to the state.
-/

namespace Jobs

/-! ## types.go -/

/-- The six job states of `types.go`. -/
inductive Status where
  | StatusProcessing
  | StatusDone
  | StatusFailedNoAudio
  | StatusFailedTooLong
  | StatusFailedTranscode
  | StatusFailedTranscribe
  deriving DecidableEq, Repr

open Status

/-- Wire value of a status (the Go string constant). -/
def Status.toString : Status → String
  | StatusProcessing => "PROCESSING"
  | StatusDone => "DONE"
  | StatusFailedNoAudio => "FAILED_NO_AUDIO"
  | StatusFailedTooLong => "FAILED_TOO_LONG"
  | StatusFailedTranscode => "FAILED_TRANSCODE"
  | StatusFailedTranscribe => "FAILED_TRANSCRIBE"

structure Token where
  Text : String
  WordType : String
  Translation : String
  deriving DecidableEq, Repr

structure Segment where
  ID : String
  StartMs : Int
  EndMs : Int
  TextOriginal : String
  TextTranslated : String
  Tokens : List Token
  deriving DecidableEq, Repr

structure ClipResult where
  ID : String
  SourceLanguage : String
  TargetLanguage : String
  TranscriptOriginal : String
  TranscriptTranslated : String
  Segments : List Segment
  CreatedAt : Int
  deriving DecidableEq, Repr

/-- A job record; `Result` is the Go pointer `*ClipResult`, `none` for nil. -/
structure Job where
  ID : String
  Status : Status
  Message : String
  CreatedAt : Int
  Result : Option ClipResult
  deriving DecidableEq, Repr

/-! ## probe.go: the value returned by `probeMedia` -/

/-- A float64 value: NaN, an infinity (`neg = true` for the negative one) or a finite number. -/
inductive Float64 where
  | nan
  | inf (neg : Bool)
  | fin (q : ℚ)
  deriving DecidableEq

/-- The comparison `a > b` of two float64 values; false as soon as one side is NaN. -/
def Float64.gt : Float64 → Float64 → Bool
  | .nan, _ => false
  | _, .nan => false
  | .inf n, .inf m => !n && m
  | .inf n, .fin _ => !n
  | .fin _, .inf m => m
  | .fin a, .fin b => decide (b < a)

/-- The triple `(durationSec, hasAudio, err)` returned by `probeMedia`; `err = none` is nil. -/
structure ProbeOut where
  durationSec : Float64
  hasAudio : Bool
  err : Option String
  deriving DecidableEq

/-! ## processor.go -/

/-- The predicate `unicode.IsSpace`: the white space characters removed by `strings.TrimSpace`. -/
def isSpace (c : Char) : Bool :=
  c = '\t' || c = '\n' || c.val = 0x0B || c.val = 0x0C || c = '\r' || c = ' ' ||
  c.val = 0x85 || c.val = 0xA0 || c.val = 0x1680 || (0x2000 ≤ c.val && c.val ≤ 0x200A) ||
  c.val = 0x2028 || c.val = 0x2029 || c.val = 0x202F || c.val = 0x205F || c.val = 0x3000

/-- The function `strings.TrimSpace`: leading and trailing white space removed. -/
def TrimSpace (s : String) : String :=
  String.mk ((s.toList.dropWhile isSpace).reverse.dropWhile isSpace).reverse

/-- The fixed segment breakdown of the mocked transcript stage. -/
def mockSegments : List Segment :=
  [ { ID := "seg-1", StartMs := 0, EndMs := 3000,
      TextOriginal := "Oi, tudo bem?", TextTranslated := "Hi, how are you?",
      Tokens := [ { Text := "Oi", WordType := "", Translation := "Hi" },
                  { Text := "tudo", WordType := "", Translation := "all" },
                  { Text := "bem", WordType := "", Translation := "well" } ] },
    { ID := "seg-2", StartMs := 3000, EndMs := 7000,
      TextOriginal := "Eu estou aprendendo portugues.",
      TextTranslated := "I am learning Portuguese.",
      Tokens := [ { Text := "aprendendo", WordType := "verb", Translation := "learning" },
                  { Text := "portugues", WordType := "noun", Translation := "Portuguese" } ] },
    { ID := "seg-3", StartMs := 7000, EndMs := 10000,
      TextOriginal := "Vamos praticar agora.", TextTranslated := "Let's practice now.",
      Tokens := [ { Text := "Vamos", WordType := "verb", Translation := "let's go" },
                  { Text := "praticar", WordType := "verb", Translation := "practice" },
                  { Text := "agora", WordType := "adverb", Translation := "now" } ] } ]

/-- The method `time.Time.UnixMilli` on a nanosecond instant: milliseconds, rounded down. -/
def UnixMilli (t : Int) : Int := t / 1000000

/-- What one call of `Processor.Process` produces: the returned triple and, in `removed`, the
paths passed to `os.Remove` during the call, in order. -/
structure ProcessOut where
  status : Status
  message : String
  result : Option ClipResult
  removed : List String
  deriving DecidableEq

/-- The body of `Processor.Process` between the `defer` and the return: the returned triple
`(Status, string, *ClipResult)`. `probe` is the outcome of `probeMedia ctx filePath` and `now`
the reading of `time.Now()`. -/
def processBody (jobID : String) (probe : ProbeOut) (now : Int) :
    Status × String × Option ClipResult :=
  if probe.err ≠ none then
    (StatusFailedTranscode, "ffprobe failed, media could not be validated", none)
  else if probe.durationSec.gt (.fin 45) then
    (StatusFailedTooLong, "clip exceeds 45 second limit", none)
  else if !probe.hasAudio then
    (StatusFailedNoAudio, "no usable audio stream detected", none)
  else
    let original := "Oi, tudo bem? Eu estou aprendendo portugues. Vamos praticar agora."
    let translated := "Hi, how are you? I am learning Portuguese. Let's practice now."
    let result : ClipResult :=
      { ID := jobID, SourceLanguage := "pt", TargetLanguage := "en",
        TranscriptOriginal := original, TranscriptTranslated := translated,
        CreatedAt := UnixMilli now, Segments := mockSegments }
    let result := { result with TranscriptOriginal := TrimSpace result.TranscriptOriginal }
    let result := { result with TranscriptTranslated := TrimSpace result.TranscriptTranslated }
    if result.TranscriptOriginal = "" ∨ result.TranscriptTranslated = "" then
      (StatusFailedTranscribe, "empty transcript for job " ++ jobID, none)
    else
      (StatusDone, "", some result)

/-- The method `Processor.Process`: `defer os.Remove(filePath)` registers one removal of
`filePath`, which runs when the body returns, whatever the return statement taken. -/
def Process (jobID filePath : String) (probe : ProbeOut) (now : Int) : ProcessOut :=
  let deferred := [filePath]
  let ret := processBody jobID probe now
  { status := ret.1, message := ret.2.1, result := ret.2.2, removed := deferred }

/-- Whether the path `q` lies below the directory `dir`. -/
def isBelow (dir q : String) : Bool :=
  (dir ++ "/").toList.isPrefixOf q.toList

/-- The call `os.Remove path` on the paths present (files and directories): it removes the
named file or empty directory and returns nil; when nothing is at `path`, or `path` is a
directory that is not empty, it returns an error and leaves everything in place. -/
def osRemove (fs : List String) (path : String) : List String × Option String :=
  if path ∉ fs then
    (fs, some "no such file or directory")
  else if fs.any (fun q => isBelow path q) then
    (fs, some "directory not empty")
  else
    (fs.filter (fun p => p ≠ path), none)

/-- The paths present after the removals `calls` have run in order, the error each returns
being discarded, as the deferred call of `Process` does. -/
def applyRemoves (fs : List String) (calls : List String) : List String :=
  calls.foldl (fun fs path => (osRemove fs path).1) fs

/-! ## manager.go -/

/-- The sentinel error values a manager operation can return. -/
inductive Error where
  | ErrQueueFull
  deriving DecidableEq, Repr

open Error

structure queuedJob where
  ID : String
  FilePath : String
  deriving DecidableEq, Repr

/-- The job table `map[string]*Job`: the entries, at most one per key in every table the
manager builds (`keysNodup_of_reachable`). -/
abbrev JobTable := List (String × Job)

/-- The map read `job, ok := t[id]`; `none` when `ok` is false. -/
def tableGet (t : JobTable) (id : String) : Option Job :=
  (t.find? (fun e => e.1 = id)).map (fun e => e.2)

/-- The builtin `delete(t, id)`. -/
def tableDelete (t : JobTable) (id : String) : JobTable :=
  t.filter (fun e => e.1 ≠ id)

/-- The map assignment `t[id] = job`: any entry under `id` is replaced. -/
def tableAssign (t : JobTable) (id : String) (job : Job) : JobTable :=
  (id, job) :: tableDelete t id

/-- A write through the pointer stored under `id`: the entry keeps its place and its key. -/
def tableStore (t : JobTable) (id : String) (job : Job) : JobTable :=
  t.map (fun e => if e.1 = id then (e.1, job) else e)

/-- The keys of the table. -/
def tableKeys (t : JobTable) : List String :=
  t.map (fun e => e.1)

/-- The state of a `Manager`: the job table, the items buffered in the channel `queue`, the
capacity `cap(m.queue)` and the time to live. The processor is stateless. -/
structure Manager where
  jobs : JobTable
  queue : List queuedJob
  queueCap : Nat
  ttl : Int
  deriving DecidableEq

/-- The constructor `NewManager`: a worker count and a queue limit below 1 are replaced by 1 and
4. The workers and the purge loop it starts are the `worker` and `purgeLoop` steps below. -/
def NewManager (workerCount : Int) (queueLimit : Int) (ttl : Int) : Manager :=
  let _workerCount := if workerCount < 1 then 1 else workerCount
  let queueLimit := if queueLimit < 1 then 4 else queueLimit
  { jobs := [], queue := [], queueCap := queueLimit.toNat, ttl := ttl }

/-- The digit table of `encoding/hex`. -/
def hextable : List Char := "0123456789abcdef".toList

/-- One hexadecimal digit, `hextable[n]`. -/
def hexDigit (n : Nat) : Char := hextable.getD n '0'

/-- The function `hex.EncodeToString`: two digits per byte, high nibble first. -/
def EncodeToString (b : List (Fin 256)) : String :=
  String.mk (b.flatMap (fun v => [hexDigit (v.val / 16), hexDigit (v.val % 16)]))

/-- The function `newID`; `b` is the content of the 8-byte buffer after `rand.Read`. -/
def newID (b : List (Fin 256)) : String :=
  EncodeToString b

/-- The method `Manager.CreateJob`, returning the new state and the pair `(id, err)`; `b` is the
random buffer of `newID` and `now` the reading of `time.Now()`. The channel send does not block
because the capacity check has just passed. -/
def CreateJob (m : Manager) (filePath : String) (b : List (Fin 256)) (now : Int) :
    Manager × String × Option Error :=
  if m.queue.length ≥ m.queueCap then
    (m, "", some ErrQueueFull)
  else
    let id := newID b
    let job : Job :=
      { ID := id, Status := StatusProcessing, Message := "", CreatedAt := now, Result := none }
    let m := { m with jobs := tableAssign m.jobs id job }
    let m := { m with queue := m.queue ++ [{ ID := id, FilePath := filePath }] }
    (m, id, none)

/-- The method `Manager.GetJob`: a copy of the record, `none` when the id is unknown. -/
def GetJob (m : Manager) (id : String) : Option Job :=
  tableGet m.jobs id

/-- The update a worker applies under the lock after `Process` returned. -/
def applyOutcome (t : JobTable) (id : String) (status : Status) (message : String)
    (result : Option ClipResult) : JobTable :=
  match tableGet t id with
  | some job => tableStore t id { job with Status := status, Message := message, Result := result }
  | none => t

/-- One iteration of the loop of `Manager.worker` on the branch `item := <-m.queue`: the oldest
buffered item is received, processed, and its outcome written. With an empty queue the worker
waits, which leaves the state as it is. -/
def worker (m : Manager) (probe : ProbeOut) (now : Int) : Manager :=
  match m.queue with
  | [] => m
  | item :: rest =>
    let out := Process item.ID item.FilePath probe now
    { m with queue := rest,
             jobs := applyOutcome m.jobs item.ID out.status out.message out.result }

/-- The value of an int64 computation whose exact result is `x`. -/
def wrapInt64 (x : Int) : Int :=
  (x + 9223372036854775808) % 18446744073709551616 - 9223372036854775808

/-- The unary minus of a `time.Duration`: it wraps, so the minimum duration is its own
negation. -/
def negDuration (d : Int) : Int :=
  wrapInt64 (-d)

/-- One iteration of the loop of `Manager.purgeLoop` on the branch `<-ticker.C`: the cutoff is
`time.Now().Add(-m.ttl)`; the range over the table visits every entry and deletes the key of
each entry created before the cutoff. -/
def purgeLoop (m : Manager) (now : Int) : Manager :=
  let cutoff := now + negDuration m.ttl
  let jobs := List.foldl (fun (t : JobTable) (e : String × Job) =>
    if e.2.CreatedAt < cutoff then tableDelete t e.1 else t) m.jobs m.jobs
  { m with jobs := jobs }

/-- The method `Manager.PurgeJob`. -/
def PurgeJob (m : Manager) (id : String) : Manager :=
  { m with jobs := tableDelete m.jobs id }

/-! ## main.go: the GET handler under `/jobs/` -/

/-- The JSON payload of a response. -/
inductive Payload where
  | error (msg : String)
  | jobStatus (jobId : String) (status : Status) (message : String) (createdAt : Int)
  | result (r : Option ClipResult)
  deriving DecidableEq

structure Response where
  code : Nat
  payload : Payload
  deriving DecidableEq

/-- The handler registered under `/jobs/`, from the point where the cleaned path is not empty:
`parts` is `strings.Split(path, "/")`, whose first element is the job id. -/
def jobsHandler (m : Manager) (method : String) (parts : List String) : Manager × Response :=
  if method ≠ "GET" then
    (m, ⟨405, .error "method not allowed"⟩)
  else
    let jobID := parts.headD ""
    match GetJob m jobID with
    | none => (m, ⟨404, .error "job not found"⟩)
    | some job =>
      if parts.length = 1 then
        (m, ⟨200, .jobStatus job.ID job.Status job.Message (UnixMilli job.CreatedAt)⟩)
      else if parts.length = 2 ∧ parts.getD 1 "" = "result" then
        if job.Status ≠ StatusDone ∨ job.Result = none then
          (m, ⟨409, .error "result not ready"⟩)
        else
          (PurgeJob m jobID, ⟨200, .result job.Result⟩)
      else
        (m, ⟨404, .error "not found"⟩)

/-- The request `GET /jobs/{id}/result`. -/
def getResult (m : Manager) (id : String) : Manager × Response :=
  jobsHandler m "GET" [id, "result"]

/-! ## Runs of the manager -/

/-- The steps of a sequential run. -/
inductive Action where
  | create (filePath : String) (b : List (Fin 256)) (now : Int)
  | work (probe : ProbeOut) (now : Int)
  | tick (now : Int)
  | purge (id : String)
  deriving DecidableEq

/-- The state after one step. -/
def step (m : Manager) : Action → Manager
  | .create filePath b now => (CreateJob m filePath b now).1
  | .work probe now => worker m probe now
  | .tick now => purgeLoop m now
  | .purge id => PurgeJob m id

/-- The state after a sequence of steps. -/
def run (m : Manager) (as : List Action) : Manager :=
  as.foldl step m

/-- The states a manager built by `NewManager` can be in. -/
def Reachable (m : Manager) : Prop :=
  ∃ workerCount queueLimit ttl as, m = run (NewManager workerCount queueLimit ttl) as

/-- The identifier a step draws: the one returned by `CreateJob` when it accepts. -/
def drawnBy (m : Manager) : Action → List String
  | .create filePath b now =>
    match (CreateJob m filePath b now).2.2 with
    | none => [(CreateJob m filePath b now).2.1]
    | some _ => []
  | _ => []

/-- The identifiers returned by the accepted `CreateJob` calls of a run, in order. -/
def drawnIDs : Manager → List Action → List String
  | _, [] => []
  | m, a :: as => drawnBy m a ++ drawnIDs (step m a) as

/-- Successive `CreateJob` calls, one per request `(filePath, b, now)`, with no other step in
between: the final state and the pairs `(id, err)` returned, in order. -/
def createAll (m : Manager) :
    List (String × List (Fin 256) × Int) → Manager × List (String × Option Error)
  | [] => (m, [])
  | r :: rs =>
    let out := CreateJob m r.1 r.2.1 r.2.2
    let rest := createAll out.1 rs
    (rest.1, out.2 :: rest.2)

/-! ## Invariants of a run -/

/-- Every entry of the table has a result exactly when its status is `DONE`. -/
def ResultIffDone (t : JobTable) : Prop :=
  ∀ e ∈ t, (e.2.Result ≠ none ↔ e.2.Status = StatusDone)

/-- What the run has established about an identifier `k` whose record `j` was seen: `k` has
been drawn, no queued item carries it, and its record is `j` or is gone. -/
def Settled (m : Manager) (D : List String) (k : String) (j : Job) : Prop :=
  k ∈ D ∧ k ∉ m.queue.map (fun q => q.ID) ∧
    (tableGet m.jobs k = none ∨ tableGet m.jobs k = some j)

/-- The invariant of a run whose drawn identifiers `D` are pairwise distinct: every key of the
table and every queued identifier has been drawn, no identifier is queued twice, and a record
that has left `PROCESSING` has no queued item. -/
def RunInv (m : Manager) (D : List String) : Prop :=
  (∀ k j, tableGet m.jobs k = some j → k ∈ D) ∧
  (∀ k ∈ m.queue.map (fun q => q.ID), k ∈ D) ∧
  (m.queue.map (fun q => q.ID)).Nodup ∧
  (∀ k j, tableGet m.jobs k = some j → j.Status ≠ StatusProcessing →
    k ∉ m.queue.map (fun q => q.ID)) ∧
  (tableKeys m.jobs).Nodup

/-! ## Example data -/

/-- The manager of `main`: two workers, queue limit 8, time to live 10 minutes. -/
def exManager : Manager := NewManager 2 8 600000000000

/-- A content of the random buffer; its identifier is `000102030405feff`. -/
def exBytes : List (Fin 256) := [0, 1, 2, 3, 4, 5, 254, 255]

/-- A second content of the random buffer; its identifier is `1020304050607080`. -/
def exBytes2 : List (Fin 256) := [16, 32, 48, 64, 80, 96, 112, 128]

/-- A probe outcome of a 10 second clip with an audio stream. -/
def exProbeOk : ProbeOut := ⟨.fin 10, true, none⟩

/-- A probe outcome of a 46 second clip with an audio stream. -/
def exProbeLong : ProbeOut := ⟨.fin 46, true, none⟩

/-- The record the worker leaves for a 46 second clip submitted at instant 7. -/
def exJobLong : Job :=
  { ID := "000102030405feff", Status := StatusFailedTooLong,
    Message := "clip exceeds 45 second limit", CreatedAt := 7, Result := none }

/-- The record `CreateJob` inserts for `exBytes` at instant 7. -/
def exJobNew : Job :=
  { ID := "000102030405feff", Status := StatusProcessing, Message := "", CreatedAt := 7,
    Result := none }

/-! ## The job table as a finite map -/

theorem tableGet_cons (e : String × Job) (t : JobTable) (k : String) :
    tableGet (e :: t) k = if e.1 = k then some e.2 else tableGet t k := by
  unfold tableGet
  by_cases h : e.1 = k <;> simp [List.find?_cons, h]

theorem tableGet_eq_none_iff (t : JobTable) (k : String) :
    tableGet t k = none ↔ k ∉ tableKeys t := by
  induction t with
  | nil => simp [tableGet, tableKeys]
  | cons e t ih =>
    rw [tableGet_cons]
    by_cases h : e.1 = k
    · simp [h, tableKeys]
    · have h2 : ¬ k = e.1 := fun h3 => h h3.symm
      simp only [tableKeys] at ih
      simp [h, h2, tableKeys, ih]

theorem mem_of_tableGet (t : JobTable) (k : String) (j : Job) (h : tableGet t k = some j) :
    (k, j) ∈ t := by
  induction t with
  | nil => simp [tableGet] at h
  | cons e t ih =>
    rw [tableGet_cons] at h
    by_cases hk : e.1 = k
    · simp only [hk, if_true, Option.some.injEq] at h
      have : e = (k, j) := Prod.ext hk h
      simp [this]
    · simp only [hk, if_false] at h
      exact List.mem_cons_of_mem _ (ih h)

theorem tableGet_of_mem (t : JobTable) (hn : (tableKeys t).Nodup) (k : String) (j : Job)
    (h : (k, j) ∈ t) : tableGet t k = some j := by
  induction t with
  | nil => simp at h
  | cons e t ih =>
    rw [tableGet_cons]
    simp only [tableKeys, List.map_cons, List.nodup_cons] at hn
    rcases List.mem_cons.mp h with h1 | h1
    · simp [← h1]
    · have hk : e.1 ≠ k := by
        intro hk
        apply hn.1
        rw [hk]
        exact List.mem_map.mpr ⟨(k, j), h1, rfl⟩
      simp only [hk, if_false]
      exact ih hn.2 h1

theorem tableGet_filter_key (t : JobTable) (q : String → Bool) (k : String) :
    tableGet (t.filter (fun e => q e.1)) k = if q k = true then tableGet t k else none := by
  induction t with
  | nil => simp [tableGet]
  | cons e t ih =>
    rw [List.filter_cons]
    by_cases hq : q e.1 = true
    · rw [if_pos hq, tableGet_cons, tableGet_cons, ih]
      by_cases hk : e.1 = k
      · rw [if_pos hk, if_pos hk, if_pos (hk ▸ hq)]
      · rw [if_neg hk, if_neg hk]
    · rw [if_neg hq, ih, tableGet_cons]
      by_cases hk : e.1 = k
      · rw [if_pos hk, if_neg (hk ▸ hq), if_neg (hk ▸ hq)]
      · rw [if_neg hk]

theorem tableGet_delete_self (t : JobTable) (id : String) :
    tableGet (tableDelete t id) id = none := by
  have h := tableGet_filter_key t (fun k => decide (k ≠ id)) id
  simpa [tableDelete] using h

theorem tableGet_delete_ne (t : JobTable) (id k : String) (h : k ≠ id) :
    tableGet (tableDelete t id) k = tableGet t k := by
  have h2 := tableGet_filter_key t (fun k => decide (k ≠ id)) k
  simpa [tableDelete, h] using h2

theorem tableGet_assign_self (t : JobTable) (id : String) (j : Job) :
    tableGet (tableAssign t id j) id = some j := by
  simp [tableAssign, tableGet_cons]

theorem tableGet_assign_ne (t : JobTable) (id k : String) (j : Job) (h : k ≠ id) :
    tableGet (tableAssign t id j) k = tableGet t k := by
  have h2 : ¬ id = k := fun h3 => h h3.symm
  simp [tableAssign, tableGet_cons, h2, tableGet_delete_ne t id k h]

theorem tableKeys_store (t : JobTable) (id : String) (j : Job) :
    tableKeys (tableStore t id j) = tableKeys t := by
  induction t with
  | nil => rfl
  | cons e t ih =>
    simp only [tableKeys, tableStore, List.map_cons] at ih ⊢
    rw [ih]
    by_cases he : e.1 = id <;> simp [he]

theorem tableGet_store_ne (t : JobTable) (id k : String) (j : Job) (h : k ≠ id) :
    tableGet (tableStore t id j) k = tableGet t k := by
  induction t with
  | nil => rfl
  | cons e t ih =>
    simp only [tableStore, List.map_cons] at ih ⊢
    rw [tableGet_cons, tableGet_cons, ih]
    by_cases he : e.1 = id
    · have hk : ¬ id = k := fun h2 => h h2.symm
      simp [he, hk]
    · simp [he]

theorem tableGet_store_self (t : JobTable) (id : String) (j j0 : Job)
    (h : tableGet t id = some j0) : tableGet (tableStore t id j) id = some j := by
  induction t with
  | nil => simp [tableGet] at h
  | cons e t ih =>
    simp only [tableStore, List.map_cons] at ih ⊢
    rw [tableGet_cons] at h ⊢
    by_cases he : e.1 = id
    · simp [he]
    · simp only [he, if_false] at h ⊢
      exact ih h

theorem tableKeys_delete_nodup (t : JobTable) (id : String) (hn : (tableKeys t).Nodup) :
    (tableKeys (tableDelete t id)).Nodup := by
  unfold tableKeys tableDelete at *
  exact (List.Nodup.sublist (List.Sublist.map _ (List.filter_sublist t)) hn)

theorem tableKeys_filter_nodup (t : JobTable) (p : String × Job → Bool)
    (hn : (tableKeys t).Nodup) : (tableKeys (t.filter p)).Nodup := by
  unfold tableKeys at *
  exact (List.Nodup.sublist (List.Sublist.map _ (List.filter_sublist t)) hn)

theorem tableKeys_assign_nodup (t : JobTable) (id : String) (j : Job)
    (hn : (tableKeys t).Nodup) : (tableKeys (tableAssign t id j)).Nodup := by
  have h1 := tableKeys_delete_nodup t id hn
  have h2 : id ∉ tableKeys (tableDelete t id) := by
    rw [← tableGet_eq_none_iff]; exact tableGet_delete_self t id
  simp only [tableAssign, tableKeys, List.map_cons, List.nodup_cons] at *
  exact ⟨h2, h1⟩

theorem tableGet_filter (t : JobTable) (p : String × Job → Bool) (hn : (tableKeys t).Nodup)
    (k : String) :
    tableGet (t.filter p) k = (tableGet t k).filter (fun j => p (k, j)) := by
  cases hg : tableGet t k with
  | none =>
    rw [Option.filter_none]
    rw [tableGet_eq_none_iff] at hg ⊢
    intro hmem
    apply hg
    simp only [tableKeys, List.mem_map, List.mem_filter] at hmem ⊢
    obtain ⟨e, ⟨he, _⟩, hk⟩ := hmem
    exact ⟨e, he, hk⟩
  | some j =>
    have hmem := mem_of_tableGet t k j hg
    by_cases hp : p (k, j) = true
    · simp only [Option.filter, hp, if_true]
      apply tableGet_of_mem _ (tableKeys_filter_nodup t p hn)
      exact List.mem_filter.mpr ⟨hmem, hp⟩
    · have hf : Option.filter (fun j => p (k, j)) (some j) = none := by
        simp [Option.filter, hp]
      rw [hf, tableGet_eq_none_iff]
      intro hmem2
      simp only [tableKeys, List.mem_map, List.mem_filter] at hmem2
      obtain ⟨e, ⟨he, hpe⟩, hk⟩ := hmem2
      have : tableGet t k = some e.2 := by
        apply tableGet_of_mem t hn
        rw [← hk]; exact he
      rw [hg] at this
      have he2 : e = (k, j) := by
        apply Prod.ext hk
        simpa using this.symm
      rw [he2] at hpe
      exact hp hpe

/-! ## The purge loop as a filter -/

theorem purge_fold_eq (cutoff : Int) (es t : JobTable) :
    List.foldl (fun (t : JobTable) (e : String × Job) =>
        if e.2.CreatedAt < cutoff then tableDelete t e.1 else t) t es
      = t.filter (fun e =>
          decide (e.1 ∉ tableKeys (es.filter (fun x => decide (x.2.CreatedAt < cutoff))))) := by
  induction es generalizing t with
  | nil => simp [tableKeys]
  | cons x es ih =>
    rw [List.foldl_cons, ih, List.filter_cons]
    by_cases hx : x.2.CreatedAt < cutoff
    · simp only [hx, if_true, decide_True, tableDelete, List.filter_filter, tableKeys,
        List.map_cons, List.mem_cons, not_or]
      apply List.filter_congr
      intro e _
      by_cases h1 : e.1 = x.1 <;> simp [h1]
    · simp [hx]

theorem purgeLoop_jobs (m : Manager) (now : Int) (hn : (tableKeys m.jobs).Nodup) :
    (purgeLoop m now).jobs
      = m.jobs.filter (fun e => decide (¬ e.2.CreatedAt < now + negDuration m.ttl)) := by
  simp only [purgeLoop]
  rw [purge_fold_eq]
  apply List.filter_congr
  intro e he
  have hget : tableGet m.jobs e.1 = some e.2 := tableGet_of_mem m.jobs hn e.1 e.2 he
  by_cases hold : e.2.CreatedAt < now + negDuration m.ttl
  · have : e.1 ∈ tableKeys (m.jobs.filter (fun x => decide (x.2.CreatedAt < now + negDuration m.ttl))) := by
      simp only [tableKeys, List.mem_map, List.mem_filter]
      exact ⟨e, ⟨he, by simp [hold]⟩, rfl⟩
    simp [this, hold]
  · have : e.1 ∉ tableKeys (m.jobs.filter (fun x => decide (x.2.CreatedAt < now + negDuration m.ttl))) := by
      intro hmem
      simp only [tableKeys, List.mem_map, List.mem_filter] at hmem
      obtain ⟨x, ⟨hx, hxold⟩, hk⟩ := hmem
      have hgx : tableGet m.jobs e.1 = some x.2 := by
        apply tableGet_of_mem m.jobs hn
        rw [← hk]; exact hx
      rw [hget] at hgx
      have : e.2 = x.2 := by simpa using hgx
      rw [this] at hold
      exact hold (by simpa using hxold)
    simp [this, hold]

/-! ## The pipeline -/

theorem trimmed_original_ne :
    TrimSpace "Oi, tudo bem? Eu estou aprendendo portugues. Vamos praticar agora." ≠ "" := by
  decide

theorem trimmed_translated_ne :
    TrimSpace "Hi, how are you? I am learning Portuguese. Let's practice now." ≠ "" := by
  decide

/-- The four outcomes of the body of `Process`, by the three tests made in order. -/
theorem processBody_eq (jobID : String) (probe : ProbeOut) (now : Int) :
    processBody jobID probe now =
      if probe.err ≠ none then
        (StatusFailedTranscode, "ffprobe failed, media could not be validated", none)
      else if probe.durationSec.gt (.fin 45) = true then
        (StatusFailedTooLong, "clip exceeds 45 second limit", none)
      else if probe.hasAudio = false then
        (StatusFailedNoAudio, "no usable audio stream detected", none)
      else
        (StatusDone, "", some
          { ID := jobID, SourceLanguage := "pt", TargetLanguage := "en",
            TranscriptOriginal :=
              TrimSpace "Oi, tudo bem? Eu estou aprendendo portugues. Vamos praticar agora.",
            TranscriptTranslated :=
              TrimSpace "Hi, how are you? I am learning Portuguese. Let's practice now.",
            Segments := mockSegments, CreatedAt := UnixMilli now }) := by
  unfold processBody
  by_cases h1 : probe.err ≠ none
  · rw [if_pos h1, if_pos h1]
  · rw [if_neg h1, if_neg h1]
    by_cases h2 : probe.durationSec.gt (.fin 45) = true
    · rw [if_pos h2, if_pos h2]
    · rw [if_neg h2, if_neg h2]
      cases h3 : probe.hasAudio with
      | false => simp
      | true => simp [trimmed_original_ne, trimmed_translated_ne]

/-- The result of `Process` is present exactly when the status is `DONE`. -/
theorem process_result_iff (jobID filePath : String) (probe : ProbeOut) (now : Int) :
    (Process jobID filePath probe now).result ≠ none ↔
      (Process jobID filePath probe now).status = StatusDone := by
  simp only [Process, processBody_eq]
  split_ifs <;> simp

theorem process_status_ne_processing (jobID filePath : String) (probe : ProbeOut) (now : Int) :
    (Process jobID filePath probe now).status ≠ StatusProcessing := by
  simp only [Process, processBody_eq]
  split_ifs <;> simp

/-! ## Invariants of the reachable states -/

theorem run_append (m : Manager) (as bs : List Action) :
    run m (as ++ bs) = run (run m as) bs := by
  simp [run, List.foldl_append]

theorem run_invariant (P : Manager → Prop) (hstep : ∀ m a, P m → P (step m a))
    (m : Manager) (as : List Action) (h : P m) : P (run m as) := by
  induction as generalizing m with
  | nil => exact h
  | cons a as ih => exact ih (step m a) (hstep m a h)

theorem reachable_induction (P : Manager → Prop)
    (hinit : ∀ workerCount queueLimit ttl, P (NewManager workerCount queueLimit ttl))
    (hstep : ∀ m a, P m → P (step m a)) (m : Manager) (h : Reachable m) : P m := by
  obtain ⟨w, q, ttl, as, rfl⟩ := h
  exact run_invariant P hstep _ as (hinit w q ttl)

theorem reachable_step (m : Manager) (a : Action) (h : Reachable m) : Reachable (step m a) := by
  obtain ⟨w, q, ttl, as, rfl⟩ := h
  refine ⟨w, q, ttl, as ++ [a], ?_⟩
  rw [run_append]; rfl

theorem createJob_jobs (m : Manager) (filePath : String) (b : List (Fin 256)) (now : Int) :
    (CreateJob m filePath b now).1.jobs =
      if m.queue.length ≥ m.queueCap then m.jobs
      else tableAssign m.jobs (newID b)
        { ID := newID b, Status := StatusProcessing, Message := "", CreatedAt := now,
          Result := none } := by
  unfold CreateJob
  split_ifs <;> rfl

theorem createJob_queue (m : Manager) (filePath : String) (b : List (Fin 256)) (now : Int) :
    (CreateJob m filePath b now).1.queue =
      if m.queue.length ≥ m.queueCap then m.queue
      else m.queue ++ [{ ID := newID b, FilePath := filePath }] := by
  unfold CreateJob
  split_ifs <;> rfl

theorem applyOutcome_keys (t : JobTable) (id : String) (status : Status) (message : String)
    (result : Option ClipResult) :
    tableKeys (applyOutcome t id status message result) = tableKeys t := by
  unfold applyOutcome
  cases tableGet t id with
  | none => rfl
  | some job => exact tableKeys_store _ _ _

theorem purgeLoop_jobs_filter (m : Manager) (now : Int) :
    ∃ p : String × Job → Bool, (purgeLoop m now).jobs = m.jobs.filter p := by
  exact ⟨_, purge_fold_eq (now + negDuration m.ttl) m.jobs m.jobs⟩

theorem step_keys_nodup (m : Manager) (a : Action) (h : (tableKeys m.jobs).Nodup) :
    (tableKeys (step m a).jobs).Nodup := by
  cases a with
  | create filePath b now =>
    simp only [step, createJob_jobs]
    split_ifs
    · exact h
    · exact tableKeys_assign_nodup _ _ _ h
  | work probe now =>
    simp only [step, worker]
    cases hq : m.queue with
    | nil => exact h
    | cons item rest => simp only [applyOutcome_keys]; exact h
  | tick now =>
    obtain ⟨p, hp⟩ := purgeLoop_jobs_filter m now
    simp only [step, hp]
    exact tableKeys_filter_nodup _ _ h
  | purge id => exact tableKeys_delete_nodup _ _ h

/-- The job table of a reachable state has at most one entry per key. -/
theorem keysNodup_of_reachable (m : Manager) (h : Reachable m) : (tableKeys m.jobs).Nodup := by
  refine reachable_induction (fun m => (tableKeys m.jobs).Nodup) ?_ step_keys_nodup m h
  intro w q ttl
  simp [NewManager, tableKeys]

theorem resultIffDone_filter (t : JobTable) (p : String × Job → Bool) (h : ResultIffDone t) :
    ResultIffDone (t.filter p) :=
  fun e he => h e (List.mem_of_mem_filter he)

theorem step_resultIffDone (m : Manager) (a : Action) (h : ResultIffDone m.jobs) :
    ResultIffDone (step m a).jobs := by
  cases a with
  | create filePath b now =>
    simp only [step, createJob_jobs]
    split_ifs
    · exact h
    · intro e he
      simp only [tableAssign, List.mem_cons] at he
      rcases he with he | he
      · subst he; simp
      · exact resultIffDone_filter _ _ h e he
  | work probe now =>
    simp only [step, worker]
    cases hq : m.queue with
    | nil => exact h
    | cons item rest =>
      simp only [applyOutcome]
      cases hg : tableGet m.jobs item.ID with
      | none => exact h
      | some job =>
        intro e he
        simp only [tableStore, List.mem_map] at he
        obtain ⟨x, hx, hxe⟩ := he
        by_cases hk : x.1 = item.ID
        · rw [if_pos hk] at hxe
          subst hxe
          exact process_result_iff item.ID item.FilePath probe now
        · rw [if_neg hk] at hxe
          subst hxe
          exact h x hx
  | tick now =>
    obtain ⟨p, hp⟩ := purgeLoop_jobs_filter m now
    simp only [step, hp]
    exact resultIffDone_filter _ _ h
  | purge id => exact resultIffDone_filter _ _ h

theorem resultIffDone_of_reachable (m : Manager) (h : Reachable m) : ResultIffDone m.jobs := by
  refine reachable_induction (fun m => ResultIffDone m.jobs) ?_ step_resultIffDone m h
  intro w q ttl e he
  simp [NewManager] at he

/-! ## Identifiers -/

theorem hexDigit_injective (a b : Fin 16) (h : hexDigit a.val = hexDigit b.val) : a = b := by
  revert a b
  decide

theorem byte_digits_injective (v w : Fin 256)
    (h1 : hexDigit (v.val / 16) = hexDigit (w.val / 16))
    (h2 : hexDigit (v.val % 16) = hexDigit (w.val % 16)) : v = w := by
  have hv := v.isLt
  have hw := w.isLt
  have e1 := hexDigit_injective ⟨v.val / 16, by omega⟩ ⟨w.val / 16, by omega⟩ h1
  have e2 := hexDigit_injective ⟨v.val % 16, by omega⟩ ⟨w.val % 16, by omega⟩ h2
  simp only [Fin.mk.injEq] at e1 e2
  apply Fin.ext
  omega

theorem hexChars_injective (b1 b2 : List (Fin 256))
    (h : b1.flatMap (fun v => [hexDigit (v.val / 16), hexDigit (v.val % 16)])
       = b2.flatMap (fun v => [hexDigit (v.val / 16), hexDigit (v.val % 16)])) : b1 = b2 := by
  induction b1 generalizing b2 with
  | nil =>
    cases b2 with
    | nil => rfl
    | cons w b2 => simp at h
  | cons v b1 ih =>
    cases b2 with
    | nil => simp at h
    | cons w b2 =>
      simp only [List.flatMap_cons, List.cons_append, List.nil_append, List.cons.injEq] at h
      obtain ⟨h1, h2, h3⟩ := h
      rw [byte_digits_injective v w h1 h2, ih b2 h3]

/-- Distinct buffers give distinct identifiers. -/
theorem newID_injective (b1 b2 : List (Fin 256)) (h : newID b1 = newID b2) : b1 = b2 := by
  exact hexChars_injective b1 b2 (congrArg String.data h)

theorem newID_length (b : List (Fin 256)) : (newID b).length = 2 * b.length := by
  simp only [newID, EncodeToString, String.length]
  induction b with
  | nil => rfl
  | cons v b ih => simp only [List.flatMap_cons, List.length_append, ih, List.length_cons,
      List.length_nil]; omega

/-! ## Runs in which the drawn identifiers are fresh -/

theorem drawnBy_create (m : Manager) (filePath : String) (b : List (Fin 256)) (now : Int) :
    drawnBy m (.create filePath b now) =
      if m.queue.length ≥ m.queueCap then [] else [newID b] := by
  unfold drawnBy CreateJob
  split_ifs <;> rfl

theorem drawnIDs_append (m : Manager) (as bs : List Action) :
    drawnIDs m (as ++ bs) = drawnIDs m as ++ drawnIDs (run m as) bs := by
  induction as generalizing m with
  | nil => rfl
  | cons a as ih =>
    show drawnBy m a ++ drawnIDs (step m a) (as ++ bs) =
      (drawnBy m a ++ drawnIDs (step m a) as) ++ drawnIDs (run (step m a) as) bs
    rw [ih, List.append_assoc]

theorem tableGet_applyOutcome_ne (t : JobTable) (id k : String) (status : Status)
    (message : String) (result : Option ClipResult) (h : k ≠ id) :
    tableGet (applyOutcome t id status message result) k = tableGet t k := by
  unfold applyOutcome
  cases tableGet t id with
  | none => rfl
  | some job => exact tableGet_store_ne _ _ _ _ h

theorem tableGet_applyOutcome_self (t : JobTable) (id : String) (status : Status)
    (message : String) (result : Option ClipResult) :
    tableGet (applyOutcome t id status message result) id =
      (tableGet t id).map
        (fun job => { job with Status := status, Message := message, Result := result }) := by
  unfold applyOutcome
  cases hg : tableGet t id with
  | none => simp [hg]
  | some job => simp [tableGet_store_self _ _ _ _ hg]

theorem settled_step (m : Manager) (D : List String) (k : String) (j : Job) (a : Action)
    (hs : Settled m D k j) (hn : (tableKeys m.jobs).Nodup)
    (hfresh : ∀ x ∈ drawnBy m a, x ∉ D) :
    Settled (step m a) (D ++ drawnBy m a) k j := by
  obtain ⟨hD, hq, hg⟩ := hs
  refine ⟨List.mem_append_left _ hD, ?_, ?_⟩
  · cases a with
    | create filePath b now =>
      simp only [step, createJob_queue]
      by_cases hfull : m.queue.length ≥ m.queueCap
      · rw [if_pos hfull]; exact hq
      · rw [if_neg hfull]
        have hne : k ≠ newID b := by
          intro hk
          apply hfresh (newID b) _ (hk ▸ hD)
          rw [drawnBy_create, if_neg hfull]; simp
        simp only [List.map_append, List.map_cons, List.map_nil, List.mem_append,
          List.mem_singleton, not_or]
        exact ⟨hq, hne⟩
    | work probe now =>
      simp only [step, worker]
      cases hqq : m.queue with
      | nil => exact hq
      | cons item rest =>
        rw [hqq] at hq
        simp only [List.map_cons, List.mem_cons, not_or] at hq
        exact hq.2
    | tick now => exact hq
    | purge id => exact hq
  · cases a with
    | create filePath b now =>
      simp only [step, createJob_jobs]
      by_cases hfull : m.queue.length ≥ m.queueCap
      · rw [if_pos hfull]; exact hg
      · rw [if_neg hfull]
        have hne : k ≠ newID b := by
          intro hk
          apply hfresh (newID b) _ (hk ▸ hD)
          rw [drawnBy_create, if_neg hfull]; simp
        rw [tableGet_assign_ne _ _ _ _ hne]
        exact hg
    | work probe now =>
      simp only [step, worker]
      cases hqq : m.queue with
      | nil => exact hg
      | cons item rest =>
        rw [hqq] at hq
        simp only [List.map_cons, List.mem_cons, not_or] at hq
        simp only [tableGet_applyOutcome_ne _ _ _ _ _ _ hq.1]
        exact hg
    | tick now =>
      simp only [step]
      rw [purgeLoop_jobs m now hn, tableGet_filter _ _ hn]
      rcases hg with hg | hg
      · left; rw [hg]; rfl
      · rw [hg]
        by_cases hold : j.CreatedAt < now + negDuration m.ttl
        · left; simp [Option.filter, hold]
        · right; simp [Option.filter, hold]
    | purge id =>
      simp only [step, PurgeJob]
      by_cases hk : k = id
      · left; rw [hk]; exact tableGet_delete_self _ _
      · rw [tableGet_delete_ne _ _ _ hk]; exact hg

theorem settled_run (k : String) (j : Job) (as : List Action) (m : Manager) (D : List String)
    (hs : Settled m D k j) (hn : (tableKeys m.jobs).Nodup)
    (hfresh : (D ++ drawnIDs m as).Nodup) :
    Settled (run m as) (D ++ drawnIDs m as) k j := by
  induction as generalizing m D with
  | nil => simpa [run, drawnIDs] using hs
  | cons a as ih =>
    simp only [drawnIDs, ← List.append_assoc] at hfresh ⊢
    have hfr : ∀ x ∈ drawnBy m a, x ∉ D := by
      intro x hx hxD
      have h1 : (D ++ drawnBy m a).Nodup := (List.nodup_append.mp hfresh).1
      exact (List.nodup_append.mp h1).2.2 hxD hx
    exact ih (step m a) (D ++ drawnBy m a) (settled_step m D k j a hs hn hfr)
      (step_keys_nodup m a hn) hfresh

theorem worker_nil (m : Manager) (probe : ProbeOut) (now : Int) (h : m.queue = []) :
    worker m probe now = m := by
  simp [worker, h]

theorem worker_cons (m : Manager) (probe : ProbeOut) (now : Int) (item : queuedJob)
    (rest : List queuedJob) (h : m.queue = item :: rest) :
    worker m probe now =
      { m with queue := rest,
               jobs := applyOutcome m.jobs item.ID
                 (Process item.ID item.FilePath probe now).status
                 (Process item.ID item.FilePath probe now).message
                 (Process item.ID item.FilePath probe now).result } := by
  simp [worker, h]

theorem runInv_step (m : Manager) (D : List String) (a : Action) (h : RunInv m D)
    (hfresh : ∀ x ∈ drawnBy m a, x ∉ D) : RunInv (step m a) (D ++ drawnBy m a) := by
  obtain ⟨hkeys, hqD, hqn, hterm, hn⟩ := h
  refine ⟨?_, ?_, ?_, ?_, step_keys_nodup m a hn⟩
  · intro k j hg
    cases a with
    | create filePath b now =>
      simp only [step, createJob_jobs] at hg
      rw [drawnBy_create]
      by_cases hfull : m.queue.length ≥ m.queueCap
      · rw [if_pos hfull] at hg ⊢
        exact List.mem_append_left _ (hkeys k j hg)
      · rw [if_neg hfull] at hg ⊢
        by_cases hk : k = newID b
        · simp [hk]
        · rw [tableGet_assign_ne _ _ _ _ hk] at hg
          exact List.mem_append_left _ (hkeys k j hg)
    | work probe now =>
      apply List.mem_append_left
      simp only [step] at hg
      cases hqq : m.queue with
      | nil => rw [worker_nil _ _ _ hqq] at hg; exact hkeys k j hg
      | cons item rest =>
        rw [worker_cons _ _ _ _ _ hqq] at hg
        simp only at hg
        by_cases hk : k = item.ID
        · rw [hk, tableGet_applyOutcome_self] at hg
          cases hg0 : tableGet m.jobs item.ID with
          | none => rw [hg0] at hg; simp at hg
          | some j0 => rw [hk]; exact hkeys _ j0 hg0
        · rw [tableGet_applyOutcome_ne _ _ _ _ _ _ hk] at hg
          exact hkeys k j hg
    | tick now =>
      apply List.mem_append_left
      simp only [step] at hg
      rw [purgeLoop_jobs m now hn, tableGet_filter _ _ hn] at hg
      cases hg0 : tableGet m.jobs k with
      | none => rw [hg0] at hg; simp at hg
      | some j0 => exact hkeys k j0 hg0
    | purge id =>
      apply List.mem_append_left
      simp only [step, PurgeJob] at hg
      by_cases hk : k = id
      · rw [hk, tableGet_delete_self] at hg; simp at hg
      · rw [tableGet_delete_ne _ _ _ hk] at hg; exact hkeys k j hg
  · intro k hk
    cases a with
    | create filePath b now =>
      simp only [step, createJob_queue] at hk
      rw [drawnBy_create]
      by_cases hfull : m.queue.length ≥ m.queueCap
      · rw [if_pos hfull] at hk ⊢
        exact List.mem_append_left _ (hqD k hk)
      · rw [if_neg hfull] at hk ⊢
        simp only [List.map_append, List.map_cons, List.map_nil, List.mem_append,
          List.mem_singleton] at hk ⊢
        rcases hk with hk | hk
        · exact Or.inl (hqD k hk)
        · exact Or.inr hk
    | work probe now =>
      apply List.mem_append_left
      simp only [step] at hk
      cases hqq : m.queue with
      | nil => rw [worker_nil _ _ _ hqq] at hk; exact hqD k hk
      | cons item rest =>
        rw [worker_cons _ _ _ _ _ hqq] at hk
        apply hqD
        rw [hqq]
        exact List.mem_cons_of_mem _ hk
    | tick now => exact List.mem_append_left _ (hqD k hk)
    | purge id => exact List.mem_append_left _ (hqD k hk)
  · cases a with
    | create filePath b now =>
      simp only [step, createJob_queue]
      by_cases hfull : m.queue.length ≥ m.queueCap
      · rw [if_pos hfull]; exact hqn
      · rw [if_neg hfull]
        have hnew : newID b ∉ D := by
          apply hfresh
          rw [drawnBy_create, if_neg hfull]; simp
        simp only [List.map_append, List.map_cons, List.map_nil]
        rw [List.nodup_append]
        refine ⟨hqn, List.nodup_singleton _, ?_⟩
        intro x hx hx2
        rw [List.mem_singleton] at hx2
        exact hnew (hx2 ▸ hqD x hx)
    | work probe now =>
      simp only [step]
      cases hqq : m.queue with
      | nil => rw [worker_nil _ _ _ hqq]; exact hqn
      | cons item rest =>
        rw [worker_cons _ _ _ _ _ hqq]
        rw [hqq] at hqn
        simp only [List.map_cons, List.nodup_cons] at hqn
        exact hqn.2
    | tick now => exact hqn
    | purge id => exact hqn
  · intro k j hg hst
    cases a with
    | create filePath b now =>
      simp only [step, createJob_jobs, createJob_queue] at hg ⊢
      by_cases hfull : m.queue.length ≥ m.queueCap
      · rw [if_pos hfull] at hg ⊢
        exact hterm k j hg hst
      · rw [if_neg hfull] at hg ⊢
        by_cases hk : k = newID b
        · rw [hk, tableGet_assign_self] at hg
          have : j.Status = StatusProcessing := by
            rw [← Option.some.inj hg]
          exact absurd this hst
        · rw [tableGet_assign_ne _ _ _ _ hk] at hg
          simp only [List.map_append, List.map_cons, List.map_nil, List.mem_append,
            List.mem_singleton, not_or]
          exact ⟨hterm k j hg hst, hk⟩
    | work probe now =>
      simp only [step] at hg ⊢
      cases hqq : m.queue with
      | nil => rw [worker_nil _ _ _ hqq] at hg ⊢; exact hterm k j hg hst
      | cons item rest =>
        rw [worker_cons _ _ _ _ _ hqq] at hg ⊢
        rw [hqq] at hqn
        simp only [List.map_cons, List.nodup_cons] at hqn
        simp only at hg ⊢
        by_cases hk : k = item.ID
        · rw [hk]; exact hqn.1
        · rw [tableGet_applyOutcome_ne _ _ _ _ _ _ hk] at hg
          have := hterm k j hg hst
          rw [hqq] at this
          simp only [List.map_cons, List.mem_cons, not_or] at this
          exact this.2
    | tick now =>
      simp only [step] at hg
      rw [purgeLoop_jobs m now hn, tableGet_filter _ _ hn] at hg
      have hg0 : tableGet m.jobs k = some j := by
        cases hg1 : tableGet m.jobs k with
        | none => rw [hg1] at hg; simp at hg
        | some j0 =>
          rw [hg1] at hg
          simp only [Option.filter] at hg
          split_ifs at hg
          exact hg
      exact hterm k j hg0 hst
    | purge id =>
      simp only [step, PurgeJob] at hg
      have hg0 : tableGet m.jobs k = some j := by
        by_cases hk : k = id
        · rw [hk, tableGet_delete_self] at hg; simp at hg
        · rw [tableGet_delete_ne _ _ _ hk] at hg; exact hg
      exact hterm k j hg0 hst

theorem runInv_run (as : List Action) (m : Manager) (D : List String) (h : RunInv m D)
    (hfresh : (D ++ drawnIDs m as).Nodup) : RunInv (run m as) (D ++ drawnIDs m as) := by
  induction as generalizing m D with
  | nil => simpa [run, drawnIDs] using h
  | cons a as ih =>
    simp only [drawnIDs, ← List.append_assoc] at hfresh ⊢
    have hfr : ∀ x ∈ drawnBy m a, x ∉ D := by
      intro x hx hxD
      have h1 : (D ++ drawnBy m a).Nodup := (List.nodup_append.mp hfresh).1
      exact (List.nodup_append.mp h1).2.2 hxD hx
    exact ih (step m a) (D ++ drawnBy m a) (runInv_step m D a h hfr) hfresh

theorem runInv_new (workerCount queueLimit ttl : Int) :
    RunInv (NewManager workerCount queueLimit ttl) [] := by
  refine ⟨?_, ?_, ?_, ?_, ?_⟩ <;> simp [NewManager, tableGet, tableKeys]

/-- In a run from `NewManager` whose accepted `CreateJob` calls return pairwise distinct
identifiers, a record seen with a terminal status is from then on either the same or gone. -/
theorem terminal_record_stable (workerCount queueLimit ttl : Int) (as1 as2 : List Action)
    (hfresh : (drawnIDs (NewManager workerCount queueLimit ttl) (as1 ++ as2)).Nodup)
    (id : String) (job : Job)
    (hget : GetJob (run (NewManager workerCount queueLimit ttl) as1) id = some job)
    (hterm : job.Status ≠ StatusProcessing) :
    GetJob (run (NewManager workerCount queueLimit ttl) (as1 ++ as2)) id = none ∨
    GetJob (run (NewManager workerCount queueLimit ttl) (as1 ++ as2)) id = some job := by
  rw [drawnIDs_append] at hfresh
  have hinv := runInv_run as1 _ [] (runInv_new workerCount queueLimit ttl)
    (by simpa using (List.nodup_append.mp hfresh).1)
  simp only [List.nil_append] at hinv
  obtain ⟨hkeys, _, _, hq, hn⟩ := hinv
  have hs : Settled (run (NewManager workerCount queueLimit ttl) as1)
      (drawnIDs (NewManager workerCount queueLimit ttl) as1) id job :=
    ⟨hkeys id job hget, hq id job hget hterm, Or.inr hget⟩
  have := settled_run id job as2 _ _ hs hn hfresh
  rw [run_append]
  exact this.2.2

/-! ## Admission -/

theorem createJob_reject (m : Manager) (filePath : String) (b : List (Fin 256)) (now : Int)
    (h : ¬ m.queue.length < m.queueCap) :
    CreateJob m filePath b now = (m, "", some ErrQueueFull) := by
  unfold CreateJob
  rw [if_pos (by omega)]

theorem createJob_accept (m : Manager) (filePath : String) (b : List (Fin 256)) (now : Int)
    (h : m.queue.length < m.queueCap) :
    CreateJob m filePath b now =
      ({ m with
          jobs := tableAssign m.jobs (newID b)
            { ID := newID b, Status := StatusProcessing, Message := "", CreatedAt := now,
              Result := none },
          queue := m.queue ++ [{ ID := newID b, FilePath := filePath }] },
        newID b, none) := by
  unfold CreateJob
  rw [if_neg (by omega)]

theorem createAll_accepts (reqs : List (String × List (Fin 256) × Int)) (m : Manager)
    (h : m.queue.length + reqs.length ≤ m.queueCap) :
    (∀ res ∈ (createAll m reqs).2, res.2 = none) ∧
    (createAll m reqs).2.length = reqs.length ∧
    (createAll m reqs).1.queue.length = m.queue.length + reqs.length ∧
    (createAll m reqs).1.queueCap = m.queueCap := by
  induction reqs generalizing m with
  | nil => simp [createAll]
  | cons r rs ih =>
    simp only [List.length_cons] at h
    have hacc : m.queue.length < m.queueCap := by omega
    have hc := createJob_accept m r.1 r.2.1 r.2.2 hacc
    simp only [createAll, hc]
    have := ih { m with
          jobs := tableAssign m.jobs (newID r.2.1)
            { ID := newID r.2.1, Status := StatusProcessing, Message := "", CreatedAt := r.2.2,
              Result := none },
          queue := m.queue ++ [{ ID := newID r.2.1, FilePath := r.1 }] }
      (by simp only [List.length_append, List.length_cons, List.length_nil]; omega)
    obtain ⟨h1, h2, h3, h4⟩ := this
    refine ⟨?_, ?_, ?_, ?_⟩
    · intro res hres
      rcases List.mem_cons.mp hres with hres | hres
      · rw [hres]
      · exact h1 res hres
    · simp only [List.length_cons, h2]
    · rw [h3]; simp only [List.length_append, List.length_cons, List.length_nil]; omega
    · rw [h4]

/-! ## Durations and removals -/

theorem negDuration_eq (d : Int) (hlo : -9223372036854775808 < d)
    (hhi : d ≤ 9223372036854775807) : negDuration d = -d := by
  unfold negDuration wrapInt64
  omega

theorem negDuration_min : negDuration (-9223372036854775808) = -9223372036854775808 := by
  unfold negDuration wrapInt64
  omega

/-- A removal that returns nil has removed the path and nothing else. -/
theorem osRemove_ok (fs : List String) (path : String) (h : (osRemove fs path).2 = none) :
    path ∉ (osRemove fs path).1 ∧
    ∀ p, p ≠ path → (p ∈ (osRemove fs path).1 ↔ p ∈ fs) := by
  unfold osRemove at h ⊢
  by_cases h1 : path ∉ fs
  · rw [if_pos h1] at h
    exact absurd h (by simp)
  · rw [if_neg h1] at h ⊢
    by_cases h2 : fs.any (fun q => isBelow path q) = true
    · rw [if_pos h2] at h
      exact absurd h (by simp)
    · rw [if_neg h2]
      refine ⟨by simp [List.mem_filter], ?_⟩
      intro p hp
      simp [List.mem_filter, hp]

/-- A removal that returns an error leaves every path in place. -/
theorem osRemove_err (fs : List String) (path : String) (h : (osRemove fs path).2 ≠ none) :
    (osRemove fs path).1 = fs := by
  unfold osRemove at h ⊢
  by_cases h1 : path ∉ fs
  · rw [if_pos h1]
  · rw [if_neg h1] at h ⊢
    by_cases h2 : fs.any (fun q => isBelow path q) = true
    · rw [if_pos h2]
    · rw [if_neg h2] at h
      exact absurd rfl h

/-- Every run of `Process` makes exactly one removal, of `filePath`; the resource is gone
afterwards when that removal succeeds and is left in place when it fails. -/
theorem process_remove_call (jobID filePath : String) (probe : ProbeOut) (now : Int)
    (fs : List String) :
    (Process jobID filePath probe now).removed = [filePath] ∧
    ((osRemove fs filePath).2 = none →
      filePath ∉ applyRemoves fs (Process jobID filePath probe now).removed) ∧
    ((osRemove fs filePath).2 ≠ none →
      applyRemoves fs (Process jobID filePath probe now).removed = fs) := by
  have h : (Process jobID filePath probe now).removed = [filePath] := rfl
  rw [h]
  refine ⟨rfl, ?_, ?_⟩
  · intro hok
    exact (osRemove_ok fs filePath hok).1
  · intro herr
    exact osRemove_err fs filePath herr

/-! ## The claims -/

/-- Claim C1: `Process` classifies in order, first match wins: a failed inspection gives
`FAILED_TRANSCODE`; otherwise a duration above 45 seconds gives `FAILED_TOO_LONG`, audio or not;
otherwise a missing audio stream gives `FAILED_NO_AUDIO`; otherwise the status is `DONE`. For a
finite duration `q` the second test is `45 < q`; 45 seconds with audio is `DONE`, 46 seconds is
`FAILED_TOO_LONG`, 10 seconds without audio is `FAILED_NO_AUDIO`. -/
theorem process_classification (jobID filePath : String) (probe : ProbeOut) (now : Int) :
    (Process jobID filePath probe now).status =
      (if probe.err ≠ none then StatusFailedTranscode
       else if probe.durationSec.gt (.fin 45) = true then StatusFailedTooLong
       else if probe.hasAudio = false then StatusFailedNoAudio
       else StatusDone) ∧
    (∀ (q : ℚ) (hasAudio : Bool),
      (Process jobID filePath ⟨.fin q, hasAudio, none⟩ now).status =
        (if 45 < q then StatusFailedTooLong
         else if hasAudio = false then StatusFailedNoAudio
         else StatusDone)) ∧
    (∀ (d : Float64) (hasAudio : Bool) (e : String),
      (Process jobID filePath ⟨d, hasAudio, some e⟩ now).status = StatusFailedTranscode) ∧
    (Process jobID filePath ⟨.fin 45, true, none⟩ now).status = StatusDone ∧
    (Process jobID filePath ⟨.fin 46, true, none⟩ now).status = StatusFailedTooLong ∧
    (Process jobID filePath ⟨.fin 46, false, none⟩ now).status = StatusFailedTooLong ∧
    (Process jobID filePath ⟨.fin 10, false, none⟩ now).status = StatusFailedNoAudio := by
  have key : ∀ p : ProbeOut, (Process jobID filePath p now).status =
      (if p.err ≠ none then StatusFailedTranscode
       else if p.durationSec.gt (.fin 45) = true then StatusFailedTooLong
       else if p.hasAudio = false then StatusFailedNoAudio
       else StatusDone) := by
    intro p
    simp only [Process, processBody_eq]
    split_ifs <;> rfl
  refine ⟨key probe, ?_, ?_, ?_, ?_, ?_, ?_⟩
  · intro q hasAudio
    rw [key]
    simp [Float64.gt]
  · intro d hasAudio e
    rw [key]
    simp
  · rw [key]; simp [Float64.gt]
  · rw [key]; simp [Float64.gt]; norm_num
  · rw [key]; simp [Float64.gt]; norm_num
  · rw [key]; simp [Float64.gt]; norm_num

/-- Claim C2: a result is present exactly when the status is `DONE`, for the triple returned
by `Process` on every input and for every record stored in a state reachable from `NewManager`
by `CreateJob`, a worker update, the purge tick and `PurgeJob`. -/
theorem result_present_iff_done (m : Manager) (h : Reachable m) (e : String × Job)
    (he : e ∈ m.jobs) :
    (∀ (jobID filePath : String) (probe : ProbeOut) (now : Int),
      (Process jobID filePath probe now).result ≠ none ↔
        (Process jobID filePath probe now).status = StatusDone) ∧
    (e.2.Result ≠ none ↔ e.2.Status = StatusDone) :=
  ⟨process_result_iff, resultIffDone_of_reachable m h e he⟩

theorem result_present_iff_done_witness :
    Reachable (run exManager [.create "/tmp/a.mp4" exBytes 7, .work exProbeLong 9]) ∧
    (exJobLong.Result ≠ none ↔ exJobLong.Status = StatusDone) :=
  ⟨⟨2, 8, 600000000000, _, rfl⟩,
    (result_present_iff_done
      (run exManager [.create "/tmp/a.mp4" exBytes 7, .work exProbeLong 9])
      ⟨2, 8, 600000000000, _, rfl⟩ ("000102030405feff", exJobLong) (by decide)).2⟩

/-- Claim C3, as stated, fails: `CreateJob` stores its record under whatever identifier
`newID` draws. After a job was seen `FAILED_TOO_LONG`, a second accepted submission whose
random buffer has the same content makes `GetJob` return `PROCESSING` for that identifier. -/
theorem status_reverts_on_repeated_draw :
    (GetJob (run exManager [.create "/tmp/a.mp4" exBytes 7, .work exProbeLong 9])
        "000102030405feff").map (fun j => j.Status) = some StatusFailedTooLong ∧
    (GetJob (run exManager [.create "/tmp/a.mp4" exBytes 7, .work exProbeLong 9,
        .create "/tmp/b.mp4" exBytes 11]) "000102030405feff").map (fun j => j.Status)
      = some StatusProcessing := by
  decide

/-- Claim C3, amended: in a run from `NewManager` by `CreateJob`, worker updates, purge ticks
and `PurgeJob` in which the accepted `CreateJob` calls return pairwise distinct identifiers,
once `GetJob id` has returned a record with a terminal status, every later `GetJob id` returns
not-found or that same record, so never `PROCESSING` and never another terminal status. -/
theorem terminal_status_never_changes (workerCount queueLimit ttl : Int)
    (as1 as2 : List Action)
    (hfresh : (drawnIDs (NewManager workerCount queueLimit ttl) (as1 ++ as2)).Nodup)
    (id : String) (job : Job)
    (hget : GetJob (run (NewManager workerCount queueLimit ttl) as1) id = some job)
    (hterm : job.Status ≠ StatusProcessing) :
    (GetJob (run (NewManager workerCount queueLimit ttl) (as1 ++ as2)) id = none ∨
     GetJob (run (NewManager workerCount queueLimit ttl) (as1 ++ as2)) id = some job) ∧
    (∀ j, GetJob (run (NewManager workerCount queueLimit ttl) (as1 ++ as2)) id = some j →
      j.Status = job.Status) := by
  have h := terminal_record_stable workerCount queueLimit ttl as1 as2 hfresh id job hget hterm
  refine ⟨h, ?_⟩
  intro j hj
  rcases h with h | h
  · rw [h] at hj; exact absurd hj (by simp)
  · rw [h] at hj; rw [← Option.some.inj hj]

theorem terminal_status_never_changes_witness :
    (GetJob (run (NewManager 2 8 600000000000)
        ([.create "/tmp/a.mp4" exBytes 7, .work exProbeLong 9] ++
         [.create "/tmp/b.mp4" exBytes2 11, .work exProbeOk 12, .tick 13]))
        "000102030405feff" = none ∨
     GetJob (run (NewManager 2 8 600000000000)
        ([.create "/tmp/a.mp4" exBytes 7, .work exProbeLong 9] ++
         [.create "/tmp/b.mp4" exBytes2 11, .work exProbeOk 12, .tick 13]))
        "000102030405feff" = some exJobLong) :=
  (terminal_status_never_changes 2 8 600000000000
    [.create "/tmp/a.mp4" exBytes 7, .work exProbeLong 9]
    [.create "/tmp/b.mp4" exBytes2 11, .work exProbeOk 12, .tick 13]
    (by decide) "000102030405feff" exJobLong (by decide) (by decide)).1

/-- Claim C4, as stated, fails: two accepted submissions whose random buffers have the same
content get the same identifier, and the second `CreateJob` returns an identifier that is the
key of a live record, which it replaces. -/
theorem createJob_repeats_identifier :
    (CreateJob exManager "/tmp/a.mp4" exBytes 7).2 = ("000102030405feff", none) ∧
    GetJob (CreateJob exManager "/tmp/a.mp4" exBytes 7).1 "000102030405feff" = some exJobNew ∧
    (CreateJob (CreateJob exManager "/tmp/a.mp4" exBytes 7).1 "/tmp/b.mp4" exBytes 11).2
      = ("000102030405feff", none) ∧
    GetJob (CreateJob (CreateJob exManager "/tmp/a.mp4" exBytes 7).1 "/tmp/b.mp4" exBytes 11).1
      "000102030405feff" = some { exJobNew with CreatedAt := 11 } := by
  decide

/-- Claim C4, amended: an accepted `CreateJob` returns the hexadecimal encoding of the random
buffer drawn by `newID`, two characters per byte, and two buffers give the same identifier
exactly when they are equal, so the identifiers are pairwise unique whenever the draws are
pairwise distinct. The table is not consulted: the record stored under the returned identifier
is the new `PROCESSING` record, the records under every other key are unchanged, and when the
returned identifier was not a key no existing record is changed. -/
theorem createJob_identifier (m : Manager) (filePath : String) (b : List (Fin 256)) (now : Int)
    (hacc : m.queue.length < m.queueCap) :
    (CreateJob m filePath b now).2 = (newID b, none) ∧
    (newID b).length = 2 * b.length ∧
    (∀ b2 : List (Fin 256), newID b2 = newID b ↔ b2 = b) ∧
    GetJob (CreateJob m filePath b now).1 (newID b) =
      some { ID := newID b, Status := StatusProcessing, Message := "", CreatedAt := now,
             Result := none } ∧
    (∀ k, k ≠ newID b → GetJob (CreateJob m filePath b now).1 k = GetJob m k) ∧
    (GetJob m (newID b) = none →
      ∀ k job, GetJob m k = some job → GetJob (CreateJob m filePath b now).1 k = some job) := by
  rw [createJob_accept m filePath b now hacc]
  refine ⟨rfl, newID_length b, ?_, ?_, ?_, ?_⟩
  · intro b2
    exact ⟨fun h => newID_injective b2 b h, fun h => by rw [h]⟩
  · exact tableGet_assign_self _ _ _
  · intro k hk
    exact tableGet_assign_ne _ _ _ _ hk
  · intro hnone k job hk
    have hne : k ≠ newID b := by
      intro h
      rw [h] at hk
      simp only [GetJob] at hnone hk
      rw [hnone] at hk
      exact absurd hk (by simp)
    simp only [GetJob] at hk ⊢
    rw [tableGet_assign_ne _ _ _ _ hne]
    exact hk

theorem createJob_identifier_witness :
    (CreateJob exManager "/tmp/a.mp4" exBytes 7).2 = (newID exBytes, none) ∧
    (newID exBytes).length = 2 * exBytes.length :=
  ⟨(createJob_identifier exManager "/tmp/a.mp4" exBytes 7 (by decide)).1,
   (createJob_identifier exManager "/tmp/a.mp4" exBytes 7 (by decide)).2.1⟩

/-- Claim C5: in a sequential run `CreateJob` accepts exactly when the number of queued items
is below the capacity; a rejection returns `ErrQueueFull` with an empty identifier and leaves
the state as it was, an acceptance adds one queue item. For a manager built with queue limit
`c ≥ 1`, `c` successive `CreateJob` calls with nothing drained are all accepted and the next
one returns `ErrQueueFull`. -/
theorem createJob_admission (c : Int) (hc : 1 ≤ c) (workerCount ttl : Int)
    (reqs : List (String × List (Fin 256) × Int)) (hlen : reqs.length = c.toNat)
    (filePath : String) (b : List (Fin 256)) (now : Int) :
    (∀ (m : Manager) (f : String) (b0 : List (Fin 256)) (t : Int),
      ((CreateJob m f b0 t).2.2 = none ↔ m.queue.length < m.queueCap) ∧
      ((CreateJob m f b0 t).2.2 = none →
        (CreateJob m f b0 t).1.queue = m.queue ++ [{ ID := newID b0, FilePath := f }]) ∧
      ((CreateJob m f b0 t).2.2 ≠ none →
        CreateJob m f b0 t = (m, "", some ErrQueueFull))) ∧
    (NewManager workerCount c ttl).queueCap = c.toNat ∧
    (∀ res ∈ (createAll (NewManager workerCount c ttl) reqs).2, res.2 = none) ∧
    (createAll (NewManager workerCount c ttl) reqs).2.length = reqs.length ∧
    CreateJob (createAll (NewManager workerCount c ttl) reqs).1 filePath b now =
      ((createAll (NewManager workerCount c ttl) reqs).1, "", some ErrQueueFull) := by
  have hcap : (NewManager workerCount c ttl).queueCap = c.toNat := by
    simp only [NewManager]
    rw [if_neg (by omega)]
  have hq : (NewManager workerCount c ttl).queue.length = 0 := rfl
  obtain ⟨h1, h2, h3, h4⟩ := createAll_accepts reqs (NewManager workerCount c ttl)
    (by rw [hcap, hq, hlen]; omega)
  refine ⟨?_, hcap, h1, h2, ?_⟩
  · intro m f b0 t
    by_cases hacc : m.queue.length < m.queueCap
    · rw [createJob_accept m f b0 t hacc]
      simp [hacc]
    · rw [createJob_reject m f b0 t hacc]
      simp [hacc]
  · apply createJob_reject
    rw [h3, h4, hcap, hq, hlen]
    omega

theorem createJob_admission_witness :
    CreateJob (createAll (NewManager 2 2 600000000000)
        [("/tmp/a.mp4", exBytes, 7), ("/tmp/b.mp4", exBytes2, 8)]).1 "/tmp/c.mp4" exBytes 9 =
      ((createAll (NewManager 2 2 600000000000)
        [("/tmp/a.mp4", exBytes, 7), ("/tmp/b.mp4", exBytes2, 8)]).1, "", some ErrQueueFull) :=
  (createJob_admission 2 (by decide) 2 600000000000
    [("/tmp/a.mp4", exBytes, 7), ("/tmp/b.mp4", exBytes2, 8)] (by decide)
    "/tmp/c.mp4" exBytes 9).2.2.2.2

/-- Claim C6, as stated, fails: the cutoff is `time.Now().Add(-m.ttl)` and the minus is taken
in int64. With a time to live of `math.MinInt64` the negation wraps to itself, the cutoff lies
292 years before `now`, and a record created one minute before the tick, which is older than
`now - ttl`, is kept. -/
theorem purge_keeps_record_at_min_ttl :
    GetJob (CreateJob (NewManager 2 8 (-9223372036854775808)) "/tmp/a.mp4" exBytes 7).1
      "000102030405feff" = some exJobNew ∧
    exJobNew.CreatedAt < 60000000007 -
      (CreateJob (NewManager 2 8 (-9223372036854775808)) "/tmp/a.mp4" exBytes 7).1.ttl ∧
    GetJob (purgeLoop (CreateJob (NewManager 2 8 (-9223372036854775808)) "/tmp/a.mp4"
      exBytes 7).1 60000000007) "000102030405feff" = some exJobNew := by
  decide

/-- Claim C6, amended: for a time to live that is an int64 other than `math.MinInt64`, a purge
tick at time `now` deletes every record created before the cutoff `now - ttl`, whatever its
status, and nothing else: the table afterwards is the table before restricted to the records
not created before the cutoff, each unchanged, and the queue and the configuration are
untouched. The table is a Go map, so it has one entry per key. -/
theorem purge_tick_exact (m : Manager) (now : Int) (hn : (tableKeys m.jobs).Nodup)
    (hlo : -9223372036854775808 < m.ttl) (hhi : m.ttl ≤ 9223372036854775807) :
    (purgeLoop m now).jobs
      = m.jobs.filter (fun e => decide (¬ e.2.CreatedAt < now - m.ttl)) ∧
    (∀ id, GetJob (purgeLoop m now) id
      = (GetJob m id).filter (fun j => decide (¬ j.CreatedAt < now - m.ttl))) ∧
    (∀ id j, GetJob m id = some j → j.CreatedAt < now - m.ttl →
      GetJob (purgeLoop m now) id = none) ∧
    (∀ id j, GetJob m id = some j → ¬ j.CreatedAt < now - m.ttl →
      GetJob (purgeLoop m now) id = some j) ∧
    (∀ id, GetJob m id = none → GetJob (purgeLoop m now) id = none) ∧
    (purgeLoop m now).queue = m.queue ∧
    (purgeLoop m now).queueCap = m.queueCap ∧
    (purgeLoop m now).ttl = m.ttl := by
  have hcut : now + negDuration m.ttl = now - m.ttl := by
    rw [negDuration_eq m.ttl hlo hhi, Int.sub_eq_add_neg]
  have hjobs : (purgeLoop m now).jobs
      = m.jobs.filter (fun e => decide (¬ e.2.CreatedAt < now - m.ttl)) := by
    rw [purgeLoop_jobs m now hn, hcut]
  have hget : ∀ id, GetJob (purgeLoop m now) id
      = (GetJob m id).filter (fun j => decide (¬ j.CreatedAt < now - m.ttl)) := by
    intro id
    simp only [GetJob]
    rw [hjobs, tableGet_filter _ _ hn]
  refine ⟨hjobs, hget, ?_, ?_, ?_, rfl, rfl, rfl⟩
  · intro id j hj hold
    rw [hget, hj]
    simp [Option.filter, hold]
  · intro id j hj hnew
    rw [hget, hj]
    simp [Option.filter, hnew]
  · intro id hnone
    rw [hget, hnone]
    rfl

theorem purge_tick_exact_witness :
    (purgeLoop (run exManager [.create "/tmp/a.mp4" exBytes 7,
        .create "/tmp/b.mp4" exBytes2 500000000000]) 600000000100).jobs
      = (run exManager [.create "/tmp/a.mp4" exBytes 7,
          .create "/tmp/b.mp4" exBytes2 500000000000]).jobs.filter
        (fun e => decide (¬ e.2.CreatedAt < 600000000100 -
          (run exManager [.create "/tmp/a.mp4" exBytes 7,
            .create "/tmp/b.mp4" exBytes2 500000000000]).ttl)) ∧
    GetJob (purgeLoop (run exManager [.create "/tmp/a.mp4" exBytes 7,
        .create "/tmp/b.mp4" exBytes2 500000000000]) 600000000100) "000102030405feff" = none :=
  ⟨(purge_tick_exact (run exManager [.create "/tmp/a.mp4" exBytes 7,
      .create "/tmp/b.mp4" exBytes2 500000000000]) 600000000100 (by decide) (by decide)
      (by decide)).1,
   (purge_tick_exact (run exManager [.create "/tmp/a.mp4" exBytes 7,
      .create "/tmp/b.mp4" exBytes2 500000000000]) 600000000100 (by decide) (by decide)
      (by decide)).2.2.1 "000102030405feff" exJobNew (by decide) (by decide)⟩

/-- Claim C7: when a worker applies the outcome of an item whose job id is no longer in the
table, the table is left exactly as it was and the id stays absent; when the id is present, its
record keeps its id and its creation time and takes the status, message and result returned by
`Process`; the records under every other key, and the set of keys, are unchanged. -/
theorem worker_update_frame (m : Manager) (probe : ProbeOut) (now : Int) (item : queuedJob)
    (rest : List queuedJob) (hq : m.queue = item :: rest) :
    (GetJob m item.ID = none →
      (worker m probe now).jobs = m.jobs ∧ GetJob (worker m probe now) item.ID = none) ∧
    (∀ job, GetJob m item.ID = some job →
      GetJob (worker m probe now) item.ID =
        some { ID := job.ID,
               Status := (Process item.ID item.FilePath probe now).status,
               Message := (Process item.ID item.FilePath probe now).message,
               CreatedAt := job.CreatedAt,
               Result := (Process item.ID item.FilePath probe now).result }) ∧
    (∀ k, k ≠ item.ID → GetJob (worker m probe now) k = GetJob m k) ∧
    tableKeys (worker m probe now).jobs = tableKeys m.jobs ∧
    (worker m probe now).queue = rest := by
  rw [worker_cons m probe now item rest hq]
  refine ⟨?_, ?_, ?_, applyOutcome_keys _ _ _ _ _, rfl⟩ <;> simp only [GetJob]
  · intro hnone
    have : applyOutcome m.jobs item.ID (Process item.ID item.FilePath probe now).status
        (Process item.ID item.FilePath probe now).message
        (Process item.ID item.FilePath probe now).result = m.jobs := by
      simp only [applyOutcome, hnone]
    rw [this]
    exact ⟨rfl, hnone⟩
  · intro job hjob
    rw [tableGet_applyOutcome_self, hjob]
    rfl
  · intro k hk
    exact tableGet_applyOutcome_ne _ _ _ _ _ _ hk

theorem worker_update_frame_witness :
    (worker (PurgeJob (CreateJob exManager "/tmp/a.mp4" exBytes 7).1 "000102030405feff")
        exProbeOk 9).jobs
      = (PurgeJob (CreateJob exManager "/tmp/a.mp4" exBytes 7).1 "000102030405feff").jobs ∧
    GetJob (worker (PurgeJob (CreateJob exManager "/tmp/a.mp4" exBytes 7).1 "000102030405feff")
        exProbeOk 9) "000102030405feff" = none :=
  (worker_update_frame
    (PurgeJob (CreateJob exManager "/tmp/a.mp4" exBytes 7).1 "000102030405feff") exProbeOk 9
    ⟨"000102030405feff", "/tmp/a.mp4"⟩ [] (by decide)).1 (by decide)

/-- Claim C8: in a reachable state, `GET /jobs/{id}/result` for a job whose status is `DONE`
answers 200 with its result, which is present, and removes the record, so the same request
repeated at once answers 404 job not found; for a job whose status is `PROCESSING` it answers
409 result not ready and leaves the state unchanged, so the repeated request answers the same. -/
theorem result_retrieval (m : Manager) (hm : Reachable m) (id : String) (job : Job)
    (hj : GetJob m id = some job) :
    (job.Status = StatusDone →
      job.Result ≠ none ∧
      (getResult m id).2 = ⟨200, .result job.Result⟩ ∧
      GetJob (getResult m id).1 id = none ∧
      (getResult (getResult m id).1 id).2 = ⟨404, .error "job not found"⟩) ∧
    (job.Status = StatusProcessing →
      getResult m id = (m, ⟨409, .error "result not ready"⟩) ∧
      getResult (getResult m id).1 id = (m, ⟨409, .error "result not ready"⟩)) := by
  constructor
  · intro hdone
    have hres : job.Result ≠ none :=
      (resultIffDone_of_reachable m hm (id, job) (mem_of_tableGet m.jobs id job hj)).mpr hdone
    have h1 : getResult m id = (PurgeJob m id, ⟨200, .result job.Result⟩) := by
      simp [getResult, jobsHandler, hj, hdone, hres]
    have h2 : GetJob (PurgeJob m id) id = none := tableGet_delete_self _ _
    refine ⟨hres, ?_, ?_, ?_⟩
    · rw [h1]
    · rw [h1]; exact h2
    · rw [h1]
      simp [getResult, jobsHandler, h2]
  · intro hproc
    have h1 : getResult m id = (m, ⟨409, .error "result not ready"⟩) := by
      simp [getResult, jobsHandler, hj, hproc]
    refine ⟨h1, ?_⟩
    rw [h1]
    exact h1

theorem result_retrieval_witness :
    (getResult (run exManager [.create "/tmp/a.mp4" exBytes 7,
        .create "/tmp/b.mp4" exBytes2 8, .work exProbeOk 9]) "1020304050607080")
      = (run exManager [.create "/tmp/a.mp4" exBytes 7,
          .create "/tmp/b.mp4" exBytes2 8, .work exProbeOk 9],
         ⟨409, .error "result not ready"⟩) ∧
    GetJob (getResult (run exManager [.create "/tmp/a.mp4" exBytes 7,
        .create "/tmp/b.mp4" exBytes2 8, .work exProbeOk 9]) "000102030405feff").1
      "000102030405feff" = none ∧
    (getResult (getResult (run exManager [.create "/tmp/a.mp4" exBytes 7,
        .create "/tmp/b.mp4" exBytes2 8, .work exProbeOk 9]) "000102030405feff").1
      "000102030405feff").2 = ⟨404, .error "job not found"⟩ :=
  ⟨((result_retrieval (run exManager [.create "/tmp/a.mp4" exBytes 7,
      .create "/tmp/b.mp4" exBytes2 8, .work exProbeOk 9]) ⟨2, 8, 600000000000, _, rfl⟩
    "1020304050607080" { exJobNew with ID := "1020304050607080", CreatedAt := 8 }
    (by decide)).2 rfl).1,
   ((result_retrieval (run exManager [.create "/tmp/a.mp4" exBytes 7,
      .create "/tmp/b.mp4" exBytes2 8, .work exProbeOk 9]) ⟨2, 8, 600000000000, _, rfl⟩
    "000102030405feff"
    { exJobNew with
        Status := StatusDone,
        Result := (Process "000102030405feff" "/tmp/a.mp4" exProbeOk 9).result }
    (by decide)).1 rfl).2.2⟩

/-- Claim C9 does not hold of the code when the removal fails: `Process` calls `os.Remove`
once on `filePath` and discards its error, so for a path that is a directory with a file below
it `Process` returns `FAILED_TRANSCODE`, the one removal fails with directory not empty, and
the resource is still present at its original path after the run. -/
theorem media_kept_when_removal_fails :
    (Process "jd" "/tmp/d" ⟨.fin 0, false, some "exit status 1"⟩ 9).status
      = StatusFailedTranscode ∧
    (Process "jd" "/tmp/d" ⟨.fin 0, false, some "exit status 1"⟩ 9).removed = ["/tmp/d"] ∧
    osRemove ["/tmp/d", "/tmp/d/clip.mp4"] "/tmp/d"
      = (["/tmp/d", "/tmp/d/clip.mp4"], some "directory not empty") ∧
    "/tmp/d" ∈ applyRemoves ["/tmp/d", "/tmp/d/clip.mp4"]
      (Process "jd" "/tmp/d" ⟨.fin 0, false, some "exit status 1"⟩ 9).removed := by
  decide

/-- Claim C10, as stated, fails: on a failed inspection the message returned with
`FAILED_TRANSCODE` is not the text "media could not be validated.", and the messages of
`FAILED_TOO_LONG` and `FAILED_NO_AUDIO` do not end with a full stop. -/
theorem failure_messages_differ :
    (Process "000102030405feff" "/tmp/a.mp4" ⟨.fin 0, false, some "exit status 1"⟩ 9).status
      = StatusFailedTranscode ∧
    (Process "000102030405feff" "/tmp/a.mp4" ⟨.fin 0, false, some "exit status 1"⟩ 9).message
      ≠ "media could not be validated." ∧
    (Process "000102030405feff" "/tmp/a.mp4" exProbeLong 9).status = StatusFailedTooLong ∧
    (Process "000102030405feff" "/tmp/a.mp4" exProbeLong 9).message
      ≠ "clip exceeds 45 second limit." ∧
    (Process "000102030405feff" "/tmp/a.mp4" ⟨.fin 10, false, none⟩ 9).status
      = StatusFailedNoAudio ∧
    (Process "000102030405feff" "/tmp/a.mp4" ⟨.fin 10, false, none⟩ 9).message
      ≠ "no usable audio stream detected." := by
  decide

/-- Claim C10, amended: the message `Process` returns is determined by the status: with
`FAILED_TRANSCODE` it is "ffprobe failed, media could not be validated", with `FAILED_TOO_LONG`
it is "clip exceeds 45 second limit", with `FAILED_NO_AUDIO` it is "no usable audio stream
detected", none ending with a full stop, and with `DONE` it is empty. -/
theorem process_messages (jobID filePath : String) (probe : ProbeOut) (now : Int) :
    (Process jobID filePath probe now).message =
      (match (Process jobID filePath probe now).status with
       | StatusFailedTranscode => "ffprobe failed, media could not be validated"
       | StatusFailedTooLong => "clip exceeds 45 second limit"
       | StatusFailedNoAudio => "no usable audio stream detected"
       | StatusDone => ""
       | StatusFailedTranscribe => "empty transcript for job " ++ jobID
       | StatusProcessing => "") ∧
    (Process jobID filePath probe now).status ≠ StatusProcessing := by
  refine ⟨?_, process_status_ne_processing jobID filePath probe now⟩
  simp only [Process, processBody_eq]
  split_ifs <;> rfl

end Jobs
